import Mathlib

/-!
Verification of the Primpoly repository (primitive polynomials modulo a prime).

This development embeds the relevant parts of the C++ sources in Lean:
the JKISS pseudo-random number generator and the uniform-integer wrapper
from `ppFactor.hpp`, the reseed lifecycle of `UniformRandomIntegers`,
the exit-status mapping of `main` from `Primpoly.cpp`, and the driver
loop of `main` (find-one and find-all modes).  Components whose
implementation files are not part of the repository snapshot (the trial
polynomial odometer and the integer factorizer) are modelled from the
specification, as marked in their doc comments.

Machine integers are embedded as `Nat` with explicit reductions modulo
`2^32` and `2^64` where the C++ types wrap.
-/

namespace Primpoly

/-! ## JKISS pseudo-random number generator (`ppFactor.hpp`) -/

/-- The four 32-bit words of JKISS state: the linear congruential stream `x`,
the xor-shift stream `y`, and the multiply-with-carry stream `z` with carry `c`
(`UniformRandomIntegers` data members in `ppFactor.hpp`). -/
structure JKissState where
  x : Nat
  y : Nat
  z : Nat
  c : Nat
deriving DecidableEq

/-- `numeric_limits<ppuint32>::max()`, the top of the generator range. -/
def JKISSMAX : Nat := 4294967295

/-- One step of the JKISS generator, from `UniformRandomIntegers::jKiss` in
`ppFactor.hpp`: the linear congruential update of `x`, the 5/7/22 xor-shift
update of `y`, the 64-bit multiply-with-carry update of `z` and `c`, and the
returned draw `x + y + z`, all with 32-bit (resp. 64-bit) wraparound. -/
def jKiss (s : JKissState) : Nat × JKissState :=
  let x := (314527869 * s.x + 1234567) % 4294967296
  let y1 := (s.y ^^^ (s.y <<< 5)) % 4294967296
  let y2 := y1 ^^^ (y1 >>> 7)
  let y := (y2 ^^^ (y2 <<< 22)) % 4294967296
  let t := (4294584393 * s.z + s.c) % 18446744073709551616
  let c := t >>> 32
  let z := t % 4294967296
  ((x + y + z) % 4294967296, ⟨x, y, z, c⟩)

/-- The default seeds of the JKISS data members in `ppFactor.hpp`
(`x{123456789}`, `y{987654321}`, `z{43219876}`, `c{6543217}`). -/
def defaultSeedState : JKissState := ⟨123456789, 987654321, 43219876, 6543217⟩

/-- The rejection loop `while (kiss > within_multiple_of_range) kiss = jKiss()`
of `UniformRandomIntegers::rand`, with explicit fuel for the unbounded retry. -/
def rejectLoop (within : Nat) (fuel : Nat) (kiss : Nat) (s : JKissState) :
    Option (Nat × JKissState) :=
  if kiss ≤ within then some (kiss, s)
  else
    match fuel with
    | 0 => none
    | Nat.succ fuel => rejectLoop within fuel (jKiss s).1 (jKiss s).2

/-- `UniformRandomIntegers::rand` from `ppFactor.hpp`: draw `kiss = jKiss()`;
if `range < JKISSMAX`, run the rejection loop and then return a further fresh
draw `jKiss() % range` (the accepted draw of the loop is overwritten by the
source line `kiss = jKiss() % range2`, only the generator state advanced by the
loop survives); otherwise return the raw draw unscaled. -/
def rand (range : Nat) (fuel : Nat) (s : JKissState) : Option (Nat × JKissState) :=
  let k := jKiss s
  if range < JKISSMAX then
    match rejectLoop (JKISSMAX - JKISSMAX % range) fuel k.1 k.2 with
    | none => none
    | some (_, s2) => some ((jKiss s2).1 % range, (jKiss s2).2)
  else
    some k

/-- The returned draw of `jKiss` is a 32-bit value. -/
theorem jKiss_fst_lt (s : JKissState) : (jKiss s).1 < 4294967296 :=
  Nat.mod_lt _ (by norm_num)

/-! ## Reseed lifecycle of `UniformRandomIntegers` (`ppFactor.hpp`) -/

/-- The static counter `num_of_initializations` after `k` constructions of
`UniformRandomIntegers`: it starts at `0` and each constructor pre-increments
it (`++num_of_initializations`). -/
def counterAfter : Nat → Nat
  | 0 => 0
  | k + 1 => counterAfter k + 1

/-- `how_often_to_reseed` from `ppFactor.hpp`. -/
def howOftenToReseed : Nat := 10000

/-- Whether the constructor running with counter value `k` (its post-increment
value) reseeds from `/dev/urandom`: the source tests
`num_of_initializations % how_often_to_reseed == 0`. -/
def reseedsAtCounter (k : Nat) : Bool := k % howOftenToReseed == 0

/-! ## Claim C10: the jKiss step function -/

/-- C10: `jKiss` is a deterministic function of the four-word state `(x, y, z, c)`:
it updates `x` to `(314527869*x + 1234567) mod 2^32`, `y` by the xor-shift
sequence with shifts 5, 7, 22, computes `t = 4294584393*z + c` in 64 bits
setting `c` to `t / 2^32` and `z` to `t mod 2^32`, and returns
`(x + y + z) mod 2^32`.  (Equal states give equal draws and equal successor
states because `jKiss` is a plain function of the state.) -/
theorem claim_C10 (s : JKissState) (hz : s.z < 4294967296) (hc : s.c < 4294967296) :
    jKiss s =
      (((314527869 * s.x + 1234567) % 4294967296
          + (((s.y ^^^ (s.y <<< 5)) % 4294967296
               ^^^ (((s.y ^^^ (s.y <<< 5)) % 4294967296) >>> 7))
             ^^^ (((s.y ^^^ (s.y <<< 5)) % 4294967296
                    ^^^ (((s.y ^^^ (s.y <<< 5)) % 4294967296) >>> 7)) <<< 22)) % 4294967296
          + (4294584393 * s.z + s.c) % 4294967296) % 4294967296,
        ⟨(314527869 * s.x + 1234567) % 4294967296,
         (((s.y ^^^ (s.y <<< 5)) % 4294967296
             ^^^ (((s.y ^^^ (s.y <<< 5)) % 4294967296) >>> 7))
            ^^^ (((s.y ^^^ (s.y <<< 5)) % 4294967296
                   ^^^ (((s.y ^^^ (s.y <<< 5)) % 4294967296) >>> 7)) <<< 22)) % 4294967296,
         (4294584393 * s.z + s.c) % 4294967296,
         (4294584393 * s.z + s.c) / 4294967296⟩) := by
  have hbound : 4294584393 * s.z + s.c < 18446744073709551616 := by
    have h1 : 4294584393 * s.z ≤ 4294584393 * 4294967295 :=
      Nat.mul_le_mul_left _ (Nat.lt_succ_iff.mp hz)
    omega
  have ht : (4294584393 * s.z + s.c) % 18446744073709551616 = 4294584393 * s.z + s.c :=
    Nat.mod_eq_of_lt hbound
  have hshift : (4294584393 * s.z + s.c) >>> 32 = (4294584393 * s.z + s.c) / 4294967296 := by
    rw [Nat.shiftRight_eq_div_pow]
  simp only [jKiss, ht, hshift]

/-- Witness for C10 at the default seed state of the source. -/
theorem claim_C10_witness :
    jKiss defaultSeedState =
      (((314527869 * defaultSeedState.x + 1234567) % 4294967296
          + (((defaultSeedState.y ^^^ (defaultSeedState.y <<< 5)) % 4294967296
               ^^^ (((defaultSeedState.y ^^^ (defaultSeedState.y <<< 5)) % 4294967296) >>> 7))
             ^^^ (((defaultSeedState.y ^^^ (defaultSeedState.y <<< 5)) % 4294967296
                    ^^^ (((defaultSeedState.y ^^^ (defaultSeedState.y <<< 5)) % 4294967296) >>> 7)) <<< 22)) % 4294967296
          + (4294584393 * defaultSeedState.z + defaultSeedState.c) % 4294967296) % 4294967296,
        ⟨(314527869 * defaultSeedState.x + 1234567) % 4294967296,
         (((defaultSeedState.y ^^^ (defaultSeedState.y <<< 5)) % 4294967296
             ^^^ (((defaultSeedState.y ^^^ (defaultSeedState.y <<< 5)) % 4294967296) >>> 7))
            ^^^ (((defaultSeedState.y ^^^ (defaultSeedState.y <<< 5)) % 4294967296
                   ^^^ (((defaultSeedState.y ^^^ (defaultSeedState.y <<< 5)) % 4294967296) >>> 7)) <<< 22)) % 4294967296,
         (4294584393 * defaultSeedState.z + defaultSeedState.c) % 4294967296,
         (4294584393 * defaultSeedState.z + defaultSeedState.c) / 4294967296⟩) :=
  claim_C10 defaultSeedState (by decide) (by decide)

/-! ## Claim C4: what the rejection scheme of `rand` actually returns -/

/-- C4: claimed, `rand` returns the first JKISS draw inside the largest multiple
of `range` below `2^32`, reduced modulo `range`.  In fact, at the default seeds
with `range = 100` the first draw is `560241513`, which the rejection loop
accepts (`560241513 ≤ 4294967295 - 4294967295 % 100`) and which reduces to
`13`, yet `rand` returns `93`: the accepted draw is overwritten by the fresh,
unfiltered draw `jKiss() % range` of the source line `kiss = jKiss() % range2`,
contradicting the code comment "Discard the random number unless it falls in a
multiple of the range.  Retry with a new random number."  This evaluates the
code at the failing input. -/
theorem claim_C4 :
    (jKiss defaultSeedState).1 = 560241513 ∧
    560241513 ≤ JKISSMAX - JKISSMAX % 100 ∧
    560241513 % 100 = 13 ∧
    Option.map Prod.fst (rand 100 1 defaultSeedState) = some 93 ∧
    (93 : Nat) ≠ 13 := by
  refine ⟨by decide, by decide, by decide, ?_, by decide⟩
  decide

/-! ## Claim C9: range of the values returned by `rand` -/

/-- C9: as stated the claim fails at `range = 2^32 - 1`.  The scaling branch of
`rand` requires `range < JKISSMAX = 2^32 - 1`, so for `range = 2^32 - 1`
(which is `< 2^32` and `> 0`) the raw draw is returned unscaled and can equal
`range`: from the state `(x, y, z, c) = (0, 1, 3701652134, 1)` the draw is
`4294967295 = range`, not in `[0, range)`. -/
theorem claim_C9_counterexample :
    0 < 4294967295 ∧ (4294967295 : Nat) < 4294967296 ∧
    Option.map Prod.fst (rand 4294967295 0 ⟨0, 1, 3701652134, 1⟩)
      = some 4294967295 ∧
    ¬ (4294967295 : Nat) < 4294967295 := by
  refine ⟨by decide, by decide, ?_, by decide⟩
  decide

/-- C9 (amended): for every generator with `0 < range < 2^32 - 1` every value
returned by `rand` lies in `[0, range)`; for `range ≥ 2^32 - 1` (in particular
for every `range ≥ 2^32`, and also for the boundary `range = 2^32 - 1`) the raw
32-bit draw is passed through unscaled, so the returned value is below `2^32`
and values in `[2^32, range)` are never produced. -/
theorem claim_C9_amended (range fuel v : Nat) (s t : JKissState)
    (h : rand range fuel s = some (v, t)) :
    (0 < range → range < JKISSMAX → v < range) ∧
    (JKISSMAX ≤ range → v < 4294967296) := by
  unfold rand at h
  by_cases hr : range < JKISSMAX
  · simp only [hr, if_true] at h
    constructor
    · intro hpos _
      cases hm : rejectLoop (JKISSMAX - JKISSMAX % range) fuel (jKiss s).1 (jKiss s).2 with
      | none => rw [hm] at h; exact absurd h (by simp)
      | some p =>
          rw [hm] at h
          have hv : v = (jKiss p.2).1 % range := by
            cases p with
            | mk k s2 => simp at h; exact h.1.symm
          rw [hv]
          exact Nat.mod_lt _ hpos
    · intro hge
      exact absurd hr (not_lt.mpr hge)
  · simp only [hr, if_false] at h
    constructor
    · intro _ hlt
      exact absurd hlt hr
    · intro _
      have hv : v = (jKiss s).1 := by
        have := congrArg (Option.map Prod.fst) h
        simp at this
        exact this.symm
      rw [hv]
      exact jKiss_fst_lt s

/-- Witness for the amended C9 at `range = 10` from the default seeds: the
returned value `3 = 2602615593 % 10` is in `[0, 10)`. -/
theorem claim_C9_amended_witness :
    (0 < 10 → 10 < JKISSMAX → 3 < 10) ∧ (JKISSMAX ≤ 10 → 3 < 4294967296) :=
  claim_C9_amended 10 1 3 defaultSeedState
    ⟨1026006319, 1903927623, 3967648947, 3789984059⟩ (by decide)

/-! ## Claim C5: the reseed lifecycle -/

/-- C5: claimed, the generator is reseeded from `/dev/urandom` on the first
construction and on every 10000th construction thereafter.  In fact the
constructor pre-increments the static counter and reseeds only when the
incremented value is a multiple of 10000, so the first construction (counter
`0 → 1`) does not reseed — contradicting the code comment "Reseed at the first
call to this class and only occasionally thereafter".  The 10000th
construction is the first that reseeds.  This evaluates the code at the
failing input. -/
theorem claim_C5 :
    reseedsAtCounter (counterAfter 0 + 1) = false ∧
    reseedsAtCounter (counterAfter 9999 + 1) = true ∧
    counterAfter 9999 + 1 = 10000 := by
  have hc : ∀ k, counterAfter k = k := by
    intro k
    induction k with
    | zero => rfl
    | succ k ih => simp [counterAfter, ih]
  rw [hc, hc]
  refine ⟨by decide, by decide, by decide⟩

/-! ## Exit statuses (`Primpoly.hpp`, `Primpoly.cpp`) -/

/-- The `ReturnStatus` enumeration from `Primpoly.hpp`. -/
inductive ReturnStatus where
  | Success
  | AskForHelp
  | PNotPrime
  | RangeError
  | InternalError
  | Reserved
deriving DecidableEq

/-- The integer value of each `ReturnStatus` enumerator (`Primpoly.hpp`). -/
def ReturnStatus.toInt : ReturnStatus → Nat
  | .Success => 0
  | .AskForHelp => 1
  | .PNotPrime => 2
  | .RangeError => 3
  | .InternalError => 4
  | .Reserved => 5

/-- The ways `main` in `Primpoly.cpp` can finish: normal completion, the help
branch, or one of the exception kinds handled by its catch blocks. -/
inductive MainOutcome where
  | success
  | askForHelp
  | primpolyError
  | parserError
  | factorError
  | bigIntRangeError
  | bigIntDomainError
  | bigIntUnderflow
  | bigIntOverflow
  | bigIntZeroDivide
  | bigIntMathError
  | arithModPError
  | polynomialRangeError
  | polynomialError
  | badAlloc
  | stdException
  | unknownException
deriving DecidableEq

/-- The status returned to the OS for each way `main` finishes, read off the
return statements and catch blocks of `Primpoly.cpp`. -/
def mainReturn : MainOutcome → ReturnStatus
  | .success => .Success
  | .askForHelp => .AskForHelp
  | .primpolyError => .InternalError
  | .parserError => .RangeError
  | .factorError => .InternalError
  | .bigIntRangeError => .InternalError
  | .bigIntDomainError => .InternalError
  | .bigIntUnderflow => .InternalError
  | .bigIntOverflow => .InternalError
  | .bigIntZeroDivide => .InternalError
  | .bigIntMathError => .InternalError
  | .arithModPError => .InternalError
  | .polynomialRangeError => .RangeError
  | .polynomialError => .InternalError
  | .badAlloc => .InternalError
  | .stdException => .InternalError
  | .unknownException => .InternalError

/-! ## Claim C8: the exit-status mapping -/

/-- C8: every exit status of `main` is one of Success (0), AskForHelp (1),
PNotPrime (2), RangeError (3), InternalError (4); a help request exits with 1,
out-of-range or malformed input (`ParserError`, `PolynomialRangeError`) exits
with 3, every internal error (factor, BigInt, arithmetic, polynomial, memory,
or unexpected exception) exits with 4, and normal completion exits with 0. -/
theorem claim_C8 :
    (∀ o : MainOutcome, (mainReturn o).toInt ≤ 4) ∧
    (mainReturn .success).toInt = 0 ∧
    (mainReturn .askForHelp).toInt = 1 ∧
    (mainReturn .parserError).toInt = 3 ∧
    (mainReturn .polynomialRangeError).toInt = 3 ∧
    (mainReturn .primpolyError).toInt = 4 ∧
    (mainReturn .factorError).toInt = 4 ∧
    (mainReturn .bigIntRangeError).toInt = 4 ∧
    (mainReturn .bigIntDomainError).toInt = 4 ∧
    (mainReturn .bigIntUnderflow).toInt = 4 ∧
    (mainReturn .bigIntOverflow).toInt = 4 ∧
    (mainReturn .bigIntZeroDivide).toInt = 4 ∧
    (mainReturn .bigIntMathError).toInt = 4 ∧
    (mainReturn .arithModPError).toInt = 4 ∧
    (mainReturn .polynomialError).toInt = 4 ∧
    (mainReturn .badAlloc).toInt = 4 ∧
    (mainReturn .stdException).toInt = 4 ∧
    (mainReturn .unknownException).toInt = 4 := by
  constructor
  · intro o
    cases o <;> decide
  · decide

/-! ## The driver loop of `main` (`Primpoly.cpp`, lines 299-350)

The generate-and-test loop of `main` walks the trial-polynomial sequence,
testing each candidate with `PolyOrder::isPrimitive`.  The tester itself lives
in `ppPolynomial`/`ppOrder` implementation files that are not part of this
snapshot, so the loop is embedded with the test abstracted as a boolean-valued
function over an abstract candidate type, and the odometer sequence of
`getMaxNumPoly()` candidates as an explicit list. -/

/-- The observable result of the loop: the final `num_primitive_poly`, the
final `num_poly` (candidates tested), and the final `is_primitive_poly` flag. -/
structure DriverResult where
  numPrimitive : Nat
  numTested : Nat
  lastWasPrimitive : Bool
deriving DecidableEq

/-- One-for-one embedding of the do-while loop of `main`: on each iteration
test the next candidate; when it is primitive, increment the count and break
as soon as the count reaches `numPrimPoly` (`getNumPrimPoly()`); otherwise
stop when not in find-all mode and the candidate was primitive, or when the
odometer is exhausted (end of the list, `num_poly >= getMaxNumPoly()`). -/
def driverLoop {α : Type} (isPrim : α → Bool) (listAll : Bool) (numPrimPoly : Nat) :
    List α → Nat → DriverResult
  | [], numPrim => ⟨numPrim, 0, false⟩
  | f :: rest, numPrim =>
      if isPrim f then
        if numPrimPoly ≤ numPrim + 1 then ⟨numPrim + 1, 1, true⟩
        else if listAll = false then ⟨numPrim + 1, 1, true⟩
        else if rest.isEmpty then ⟨numPrim + 1, 1, true⟩
        else
          ⟨(driverLoop isPrim listAll numPrimPoly rest (numPrim + 1)).numPrimitive,
           (driverLoop isPrim listAll numPrimPoly rest (numPrim + 1)).numTested + 1,
           (driverLoop isPrim listAll numPrimPoly rest (numPrim + 1)).lastWasPrimitive⟩
      else
        if rest.isEmpty then ⟨numPrim, 1, false⟩
        else
          ⟨(driverLoop isPrim listAll numPrimPoly rest numPrim).numPrimitive,
           (driverLoop isPrim listAll numPrimPoly rest numPrim).numTested + 1,
           (driverLoop isPrim listAll numPrimPoly rest numPrim).lastWasPrimitive⟩

/-- The find-all run of the loop, started as `main` starts it. -/
def findAllResult {α : Type} (isPrim : α → Bool) (numPrimPoly : Nat)
    (candidates : List α) : DriverResult :=
  driverLoop isPrim true numPrimPoly candidates 0

/-- How `main` finishes in find-one mode: normally when the loop ends with
`is_primitive_poly` set, otherwise by throwing `PolynomialError`
("Tested all ... possible polynomials, but failed to find a primitive
polynomial"). -/
def findOneOutcome {α : Type} (isPrim : α → Bool) (numPrimPoly : Nat)
    (candidates : List α) : MainOutcome :=
  if (driverLoop isPrim false numPrimPoly candidates 0).lastWasPrimitive then
    MainOutcome.success
  else
    MainOutcome.polynomialError

/-- When no candidate passes the test, the loop walks the whole list, never
reports a primitive, and ends with the flag down. -/
theorem driverLoop_all_fail {α : Type} (isPrim : α → Bool) (listAll : Bool)
    (numPrimPoly : Nat) :
    ∀ (l : List α) (acc : Nat), (∀ f ∈ l, isPrim f = false) →
      driverLoop isPrim listAll numPrimPoly l acc = ⟨acc, l.length, false⟩ := by
  intro l
  induction l with
  | nil => intro acc _; rfl
  | cons f rest ih =>
      intro acc h
      have hf : isPrim f = false := h f (List.mem_cons_self f rest)
      have hrest : ∀ g ∈ rest, isPrim g = false :=
        fun g hg => h g (List.mem_cons_of_mem f hg)
      by_cases hr : rest.isEmpty
      · rw [List.isEmpty_iff] at hr
        subst hr
        simp [driverLoop, hf]
      · rw [Bool.not_eq_true] at hr
        simp [driverLoop, hf, hr, ih acc hrest]

/-! ## Claim C3: find-one exhaustion is a fatal internal error -/

/-- C3: in find-one mode, if the odometer exhausts the complete candidate set
without any polynomial passing the primitivity test, `main` tests all
`getMaxNumPoly()` candidates and then throws `PolynomialError`, which the
catch block maps to the `InternalError` (4) exit status rather than a normal
return. -/
theorem claim_C3 {α : Type} (isPrim : α → Bool) (numPrimPoly : Nat)
    (candidates : List α) (h : ∀ f ∈ candidates, isPrim f = false) :
    (driverLoop isPrim false numPrimPoly candidates 0).numTested
        = candidates.length ∧
    findOneOutcome isPrim numPrimPoly candidates = MainOutcome.polynomialError ∧
    (mainReturn (findOneOutcome isPrim numPrimPoly candidates)).toInt = 4 ∧
    findOneOutcome isPrim numPrimPoly candidates ≠ MainOutcome.success := by
  have hl := driverLoop_all_fail isPrim false numPrimPoly candidates 0 h
  refine ⟨by rw [hl], ?_, ?_, ?_⟩ <;> simp [findOneOutcome, hl, mainReturn, ReturnStatus.toInt]

/-- Witness for C3: four candidates, none primitive. -/
theorem claim_C3_witness :
    (driverLoop (fun _ => false) false 2 ([0, 1, 2, 3] : List Nat) 0).numTested = 4 ∧
    findOneOutcome (fun _ => false) 2 ([0, 1, 2, 3] : List Nat)
        = MainOutcome.polynomialError ∧
    (mainReturn (findOneOutcome (fun _ => false) 2 ([0, 1, 2, 3] : List Nat))).toInt = 4 ∧
    findOneOutcome (fun _ => false) 2 ([0, 1, 2, 3] : List Nat) ≠ MainOutcome.success :=
  claim_C3 (fun _ => false) 2 [0, 1, 2, 3] (by decide)

/-- In find-all mode, when the candidate pool still holds exactly the missing
number of primitives, the loop reports all of them and stops at the one that
completes the count: the tested prefix is the shortest prefix holding them. -/
theorem driverLoop_findAll {α : Type} (isPrim : α → Bool) (E : Nat) :
    ∀ (l : List α) (acc : Nat), acc < E → acc + l.countP isPrim = E →
      (driverLoop isPrim true E l acc).numPrimitive = E ∧
      (driverLoop isPrim true E l acc).numTested ≤ l.length ∧
      acc + (l.take (driverLoop isPrim true E l acc).numTested).countP isPrim = E ∧
      ∀ k, k < (driverLoop isPrim true E l acc).numTested →
        acc + (l.take k).countP isPrim < E := by
  intro l
  induction l with
  | nil =>
      intro acc hlt hcount
      rw [List.countP_nil] at hcount
      omega
  | cons f rest ih =>
      intro acc hlt hcount
      rw [List.countP_cons] at hcount
      by_cases hf : isPrim f
      · simp only [hf, if_pos] at hcount
        by_cases hE : E ≤ acc + 1
        · have hd : driverLoop isPrim true E (f :: rest) acc = ⟨acc + 1, 1, true⟩ := by
            simp [driverLoop, hf, hE]
          have hnp : (driverLoop isPrim true E (f :: rest) acc).numPrimitive = acc + 1 := by
            rw [hd]
          have hnt : (driverLoop isPrim true E (f :: rest) acc).numTested = 1 := by
            rw [hd]
          rw [hnp, hnt]
          refine ⟨by omega, by simp, ?_, ?_⟩
          · rw [List.take_succ_cons, List.take_zero, List.countP_cons, List.countP_nil]
            simp only [hf, if_pos]
            omega
          · intro k hk
            have hk0 : k = 0 := by omega
            subst hk0
            rw [List.take_zero, List.countP_nil]
            omega
        · by_cases hrest : rest.isEmpty
          · rw [List.isEmpty_iff] at hrest
            rw [hrest, List.countP_nil] at hcount
            omega
          · rw [Bool.not_eq_true] at hrest
            have hd : driverLoop isPrim true E (f :: rest) acc
                = ⟨(driverLoop isPrim true E rest (acc + 1)).numPrimitive,
                   (driverLoop isPrim true E rest (acc + 1)).numTested + 1,
                   (driverLoop isPrim true E rest (acc + 1)).lastWasPrimitive⟩ := by
              simp [driverLoop, hf, hE, hrest]
            have hnp : (driverLoop isPrim true E (f :: rest) acc).numPrimitive
                = (driverLoop isPrim true E rest (acc + 1)).numPrimitive := by
              rw [hd]
            have hnt : (driverLoop isPrim true E (f :: rest) acc).numTested
                = (driverLoop isPrim true E rest (acc + 1)).numTested + 1 := by
              rw [hd]
            obtain ⟨h1, h2, h3, h4⟩ := ih (acc + 1) (by omega) (by omega)
            rw [hnp, hnt]
            refine ⟨h1, by simp only [List.length_cons]; omega, ?_, ?_⟩
            · rw [List.take_succ_cons, List.countP_cons]
              simp only [hf, if_pos]
              omega
            · intro k hk
              cases k with
              | zero =>
                  rw [List.take_zero, List.countP_nil]
                  omega
              | succ j =>
                  rw [List.take_succ_cons, List.countP_cons]
                  simp only [hf, if_pos]
                  have := h4 j (by omega)
                  omega
      · rw [Bool.not_eq_true] at hf
        simp only [hf, Bool.false_eq_true, if_false] at hcount
        by_cases hrest : rest.isEmpty
        · rw [List.isEmpty_iff] at hrest
          rw [hrest, List.countP_nil] at hcount
          omega
        · rw [Bool.not_eq_true] at hrest
          have hd : driverLoop isPrim true E (f :: rest) acc
              = ⟨(driverLoop isPrim true E rest acc).numPrimitive,
                 (driverLoop isPrim true E rest acc).numTested + 1,
                 (driverLoop isPrim true E rest acc).lastWasPrimitive⟩ := by
            simp [driverLoop, hf, hrest]
          have hnp : (driverLoop isPrim true E (f :: rest) acc).numPrimitive
              = (driverLoop isPrim true E rest acc).numPrimitive := by
            rw [hd]
          have hnt : (driverLoop isPrim true E (f :: rest) acc).numTested
              = (driverLoop isPrim true E rest acc).numTested + 1 := by
            rw [hd]
          obtain ⟨h1, h2, h3, h4⟩ := ih acc (by omega) (by omega)
          rw [hnp, hnt]
          refine ⟨h1, by simp only [List.length_cons]; omega, ?_, ?_⟩
          · rw [List.take_succ_cons, List.countP_cons]
            simp only [hf, Bool.false_eq_true, if_false]
            omega
          · intro k hk
            cases k with
            | zero =>
                rw [List.take_zero, List.countP_nil]
                omega
            | succ j =>
                rw [List.take_succ_cons, List.countP_cons]
                simp only [hf, Bool.false_eq_true, if_false]
                have := h4 j (by omega)
                omega

/-- For a prime `p` and `n ≥ 2`, the a priori number `φ(p^n - 1) / n` of
primitive polynomials is positive: the order of `p` in `(ZMod (p^n - 1))ˣ`
is exactly `n`, so `n` divides `φ(p^n - 1)`. -/
theorem totient_div_degree_pos (p n : Nat) (hp : p.Prime) (hn : 2 ≤ n) :
    0 < Nat.totient (p ^ n - 1) / n := by
  have hp2 : 2 ≤ p := hp.two_le
  have hpow4 : 4 ≤ p ^ n := by
    calc (4 : Nat) = 2 ^ 2 := by norm_num
    _ ≤ 2 ^ n := Nat.pow_le_pow_right (by norm_num) hn
    _ ≤ p ^ n := Nat.pow_le_pow_left hp2 n
  have hm3 : 3 ≤ p ^ n - 1 := by omega
  have hmp1 : p ^ n = (p ^ n - 1) + 1 := by omega
  haveI : NeZero (p ^ n - 1) := ⟨by omega⟩
  have hcop : Nat.Coprime p (p ^ n - 1) := by
    rcases hp.eq_one_or_self_of_dvd _ (Nat.gcd_dvd_left p (p ^ n - 1)) with h | h
    · exact h
    · exfalso
      have hpn : p ∣ p ^ n := dvd_pow_self p (by omega)
      have hpm : p ∣ p ^ n - 1 := by
        have hg := Nat.gcd_dvd_right p (p ^ n - 1)
        rwa [h] at hg
      have h1 : p ∣ p ^ n - (p ^ n - 1) := Nat.dvd_sub' hpn hpm
      have h2 : p ^ n - (p ^ n - 1) = 1 := by omega
      rw [h2] at h1
      exact absurd (Nat.le_of_dvd Nat.one_pos h1) (by omega)
  set u : (ZMod (p ^ n - 1))ˣ := ZMod.unitOfCoprime p hcop with hu
  have hcoe : (u : ZMod (p ^ n - 1)) = (p : ZMod (p ^ n - 1)) := rfl
  have hun : u ^ n = 1 := by
    apply Units.ext
    rw [Units.val_pow_eq_pow_val, hcoe, Units.val_one]
    calc (p : ZMod (p ^ n - 1)) ^ n = ((p ^ n : ℕ) : ZMod (p ^ n - 1)) := by push_cast; ring
    _ = (((p ^ n - 1) + 1 : ℕ) : ZMod (p ^ n - 1)) := by rw [← hmp1]
    _ = 1 := by push_cast [ZMod.natCast_self]; ring
  have hulow : ∀ k, 1 ≤ k → k < n → u ^ k ≠ 1 := by
    intro k hk1 hkn hcontra
    have hzk : ((p ^ k : ℕ) : ZMod (p ^ n - 1)) = ((1 : ℕ) : ZMod (p ^ n - 1)) := by
      have hv := congrArg Units.val hcontra
      rw [Units.val_pow_eq_pow_val, hcoe, Units.val_one] at hv
      push_cast
      exact hv
    have hmod : p ^ k % (p ^ n - 1) = 1 % (p ^ n - 1) :=
      (ZMod.natCast_eq_natCast_iff _ _ _).mp hzk
    have hklt : p ^ k < p ^ n - 1 := by
      have hk2 : p ^ k ≤ p ^ (n - 1) := Nat.pow_le_pow_right (by omega) (by omega)
      have ha2 : 2 ≤ p ^ (n - 1) := by
        calc (2 : Nat) = 2 ^ 1 := by norm_num
        _ ≤ 2 ^ (n - 1) := Nat.pow_le_pow_right (by norm_num) (by omega)
        _ ≤ p ^ (n - 1) := Nat.pow_le_pow_left hp2 (n - 1)
      have hsplit : p ^ n = p ^ (n - 1) * p := by
        rw [← pow_succ]
        congr 1
        omega
      have hdouble : p ^ (n - 1) * 2 ≤ p ^ (n - 1) * p :=
        Nat.mul_le_mul_left _ hp2
      omega
    rw [Nat.mod_eq_of_lt hklt, Nat.mod_eq_of_lt (by omega)] at hmod
    have hge2 : 2 ≤ p ^ k := by
      calc (2 : Nat) = 2 ^ 1 := by norm_num
      _ ≤ 2 ^ k := Nat.pow_le_pow_right (by norm_num) hk1
      _ ≤ p ^ k := Nat.pow_le_pow_left hp2 k
    omega
  have horder : orderOf u = n := by
    have hdvd : orderOf u ∣ n := orderOf_dvd_of_pow_eq_one hun
    have hpos : 0 < orderOf u := orderOf_pos u
    rcases Nat.lt_or_ge (orderOf u) n with hlt | hge
    · exact absurd (pow_orderOf_eq_one u) (hulow _ hpos hlt)
    · exact Nat.le_antisymm (Nat.le_of_dvd (by omega) hdvd) hge
  have hdvdtot : n ∣ Nat.totient (p ^ n - 1) := by
    have hc := orderOf_dvd_card (x := u)
    rwa [ZMod.card_units_eq_totient, horder] at hc
  have htotpos : 0 < Nat.totient (p ^ n - 1) := Nat.totient_pos.mpr (by omega)
  exact Nat.div_pos (Nat.le_of_dvd htotpos hdvdtot) (by omega)

/-! ## Claim C2: find-all reports exactly φ(pⁿ−1)/n primitives and stops there -/

/-- C2: in find-all mode with the a priori count `getNumPrimPoly() =
φ(pⁿ−1)/n` (modelled from the spec; `PolyOrder` is not in this snapshot) and a
candidate pool in which exactly that many polynomials pass the primitivity
test (the spec's invariant 1), the driver loop reports exactly `φ(pⁿ−1)/n`
primitives, stops as soon as the running count reaches that number (every
strict prefix of the tested candidates holds fewer), and tests no candidate
beyond the one that completes the count. -/
theorem claim_C2 {α : Type} (isPrim : α → Bool) (p n : Nat) (candidates : List α)
    (hp : p.Prime) (hn : 2 ≤ n)
    (hcount : candidates.countP isPrim = Nat.totient (p ^ n - 1) / n) :
    (findAllResult isPrim (Nat.totient (p ^ n - 1) / n) candidates).numPrimitive
        = Nat.totient (p ^ n - 1) / n ∧
    (findAllResult isPrim (Nat.totient (p ^ n - 1) / n) candidates).numTested
        ≤ candidates.length ∧
    (candidates.take
        (findAllResult isPrim (Nat.totient (p ^ n - 1) / n) candidates).numTested).countP
        isPrim = Nat.totient (p ^ n - 1) / n ∧
    ∀ k, k < (findAllResult isPrim (Nat.totient (p ^ n - 1) / n) candidates).numTested →
      (candidates.take k).countP isPrim < Nat.totient (p ^ n - 1) / n := by
  have hE : 0 < Nat.totient (p ^ n - 1) / n := totient_div_degree_pos p n hp hn
  have h := driverLoop_findAll isPrim (Nat.totient (p ^ n - 1) / n) candidates 0
    (by omega) (by omega)
  simpa [findAllResult] using h

/-- Witness for C2 at `p = 2`, `n = 2`: `φ(3)/2 = 1`, four candidates of which
exactly one passes, and the loop reports that one. -/
theorem claim_C2_witness :
    (findAllResult (fun k => decide (k = 2)) (Nat.totient (2 ^ 2 - 1) / 2)
        ([0, 1, 2, 3] : List Nat)).numPrimitive = Nat.totient (2 ^ 2 - 1) / 2 :=
  (claim_C2 (fun k => decide (k = 2)) 2 2 [0, 1, 2, 3] (by norm_num)
    (by norm_num) (by decide)).1

/-! ## The trial-polynomial odometer (modelled from the spec)

`Polynomial::initialTrialPoly` and `Polynomial::nextTrialPoly` (declared in
`PrimpolyC/Primpoly.h` as `initial_trial_poly` / `next_trial_poly`) live in
implementation files that are not part of this snapshot, so they are modelled
from the specification.  A candidate is represented by its `n` low-order
coefficients `(a₀, …, a_{n−1})`; the leading coefficient `a_n = 1` is fixed
and kept implicit. -/

/-- Modelled from the spec: `initialTrialPoly(n, p)` is the polynomial
`xⁿ − 1`, i.e. coefficients `a₀ = p−1`, `a₁ … a_{n−1} = 0` (and `a_n = 1`).
The missing source is `ppPolynomial.cpp` (C++) / `ppHelperFunc.c` (C). -/
def initialTrialPoly (n p : Nat) : List Nat :=
  (p - 1) :: List.replicate (n - 1) 0

/-- Modelled from the spec: `nextTrialPoly()` is a base-`p` odometer on
`(a₀, …, a_{n−1})` with `a_n` fixed at 1: increment from the least significant
coefficient, carrying on overflow.  The missing source is `ppPolynomial.cpp`
(C++) / `ppHelperFunc.c` (C). -/
def nextTrialPoly (p : Nat) : List Nat → List Nat
  | [] => []
  | a :: rest => if a + 1 < p then (a + 1) :: rest else 0 :: nextTrialPoly p rest

/-- The base-`p` value `Σ aᵢ pⁱ` of a coefficient list; it identifies each
monic degree-`n` candidate uniquely. -/
def polyValue (p : Nat) : List Nat → Nat
  | [] => 0
  | a :: rest => a + p * polyValue p rest

/-- The `k`-th candidate of the trial sequence started at `initialTrialPoly`. -/
def trialPolySeq (p n k : Nat) : List Nat :=
  (nextTrialPoly p)^[k] (initialTrialPoly n p)

theorem nextTrialPoly_length (p : Nat) :
    ∀ l : List Nat, (nextTrialPoly p l).length = l.length := by
  intro l
  induction l with
  | nil => rfl
  | cons a rest ih =>
      by_cases h : a + 1 < p <;> simp [nextTrialPoly, h, ih]

theorem nextTrialPoly_bounds (p : Nat) (hp : 1 ≤ p) :
    ∀ l : List Nat, (∀ a ∈ l, a < p) → ∀ a ∈ nextTrialPoly p l, a < p := by
  intro l
  induction l with
  | nil => intro _ a ha; simp [nextTrialPoly] at ha
  | cons a rest ih =>
      intro hl b hb
      by_cases h : a + 1 < p
      · simp only [nextTrialPoly, h, if_pos] at hb
        rcases List.mem_cons.mp hb with rfl | hb
        · exact h
        · exact hl b (List.mem_cons_of_mem a hb)
      · simp only [nextTrialPoly, h, if_neg, not_false_iff] at hb
        rcases List.mem_cons.mp hb with rfl | hb
        · omega
        · exact ih (fun c hc => hl c (List.mem_cons_of_mem a hc)) b hb

theorem polyValue_lt (p : Nat) :
    ∀ l : List Nat, (∀ a ∈ l, a < p) → polyValue p l < p ^ l.length := by
  intro l
  induction l with
  | nil => intro _; simp [polyValue]
  | cons a rest ih =>
      intro hl
      have ha : a < p := hl a (List.mem_cons_self a rest)
      have hv : polyValue p rest < p ^ rest.length :=
        ih (fun c hc => hl c (List.mem_cons_of_mem a hc))
      simp only [polyValue, List.length_cons]
      have h1 : a + p * polyValue p rest + 1 ≤ p * (polyValue p rest + 1) := by
        rw [Nat.mul_add]
        omega
      have h2 : p * (polyValue p rest + 1) ≤ p * p ^ rest.length :=
        Nat.mul_le_mul_left p hv
      have h3 : p ^ (rest.length + 1) = p * p ^ rest.length := by
        rw [pow_succ]
        exact Nat.mul_comm _ _
      omega

theorem polyValue_next (p : Nat) (hp : 1 ≤ p) :
    ∀ l : List Nat, (∀ a ∈ l, a < p) →
      polyValue p (nextTrialPoly p l) = (polyValue p l + 1) % p ^ l.length := by
  intro l
  induction l with
  | nil => simp [polyValue, nextTrialPoly]
  | cons a rest ih =>
      intro hl
      have ha : a < p := hl a (List.mem_cons_self a rest)
      have hrest : ∀ c ∈ rest, c < p := fun c hc => hl c (List.mem_cons_of_mem a hc)
      have hv : polyValue p rest < p ^ rest.length := polyValue_lt p rest hrest
      by_cases h : a + 1 < p
      · simp only [nextTrialPoly, h, if_pos, polyValue, List.length_cons]
        have hlt : a + 1 + p * polyValue p rest < p ^ (rest.length + 1) := by
          have h1 : a + 1 + p * polyValue p rest < p * (polyValue p rest + 1) := by
            rw [Nat.mul_add]
            omega
          have h2 : p * (polyValue p rest + 1) ≤ p * p ^ rest.length :=
            Nat.mul_le_mul_left p hv
          have h3 : p ^ (rest.length + 1) = p * p ^ rest.length := by
            rw [pow_succ]
            exact Nat.mul_comm _ _
          omega
        have harr : a + p * polyValue p rest + 1 = a + 1 + p * polyValue p rest := by
          omega
        rw [harr, Nat.mod_eq_of_lt hlt]
      · have haeq : a = p - 1 := by omega
        simp only [nextTrialPoly, h, if_neg, not_false_iff, polyValue, List.length_cons]
        rw [ih hrest]
        have hsplit : p ^ (rest.length + 1) = p * p ^ rest.length := by
          rw [pow_succ]
          exact Nat.mul_comm _ _
        rw [hsplit, Nat.zero_add]
        have harr : a + p * polyValue p rest + 1 = p * (polyValue p rest + 1) := by
          rw [Nat.mul_add]
          omega
        rw [harr, Nat.mul_mod_mul_left]

/-- The coefficient lists of the trial sequence stay well formed: length `n`
and every coefficient below `p`. -/
theorem trialPolySeq_wf (p n : Nat) (hp : 1 ≤ p) (hn : 1 ≤ n) :
    ∀ k, (trialPolySeq p n k).length = n ∧ ∀ a ∈ trialPolySeq p n k, a < p := by
  intro k
  induction k with
  | zero =>
      constructor
      · simp [trialPolySeq, initialTrialPoly]
        omega
      · intro a ha
        simp only [trialPolySeq, Function.iterate_zero, id_eq, initialTrialPoly] at ha
        rcases List.mem_cons.mp ha with rfl | ha
        · omega
        · rw [List.eq_of_mem_replicate ha]
          omega
  | succ k ih =>
      have hstep : trialPolySeq p n (k + 1) = nextTrialPoly p (trialPolySeq p n k) := by
        simp [trialPolySeq, Function.iterate_succ_apply']
      constructor
      · rw [hstep, nextTrialPoly_length]
        exact ih.1
      · rw [hstep]
        exact nextTrialPoly_bounds p hp _ ih.2

/-! ## Claim C6: the odometer visits each monic polynomial at most once -/

/-- C6: for every prime `p` and `n ≥ 2`, the enumeration that starts at
`initialTrialPoly(n, p) = xⁿ − 1` and repeatedly applies `nextTrialPoly()`
behaves as a base-`p` odometer on `(a₀, …, a_{n−1})` with `a_n` fixed at 1:
the base-`p` value of the `k`-th candidate is `(p − 1 + k) mod pⁿ` (each step
increments from the least significant coefficient with carry), and therefore
every monic degree-`n` polynomial is visited at most once during the first
`pⁿ` steps, i.e. before the odometer wraps. -/
theorem claim_C6 (p n : Nat) (hp : p.Prime) (hn : 2 ≤ n) :
    (∀ k, polyValue p (trialPolySeq p n k) = (p - 1 + k) % p ^ n) ∧
    (∀ i j, i < j → j < p ^ n → trialPolySeq p n i ≠ trialPolySeq p n j) := by
  have hp1 : 1 ≤ p := by
    have := hp.two_le
    omega
  have hn1 : 1 ≤ n := by omega
  have hval : ∀ k, polyValue p (trialPolySeq p n k) = (p - 1 + k) % p ^ n := by
    intro k
    induction k with
    | zero =>
        have hzero : polyValue p (List.replicate (n - 1) 0) = 0 := by
          induction (n - 1) with
          | zero => rfl
          | succ m ihm => simp [List.replicate_succ, polyValue, ihm]
        have hlt : p - 1 < p ^ n := by
          have : p ≤ p ^ n := Nat.le_self_pow (by omega) p
          omega
        simp only [trialPolySeq, Function.iterate_zero, id_eq, initialTrialPoly,
          polyValue, hzero, Nat.mul_zero, Nat.add_zero]
        exact (Nat.mod_eq_of_lt hlt).symm
    | succ k ih =>
        have hstep : trialPolySeq p n (k + 1) = nextTrialPoly p (trialPolySeq p n k) := by
          simp [trialPolySeq, Function.iterate_succ_apply']
        obtain ⟨hlen, hbd⟩ := trialPolySeq_wf p n hp1 hn1 k
        rw [hstep, polyValue_next p hp1 _ hbd, hlen, ih, Nat.mod_add_mod]
        congr 1
  refine ⟨hval, ?_⟩
  intro i j hij hjlt heq
  have hvi := hval i
  have hvj := hval j
  rw [heq] at hvi
  have hmods : (p - 1 + i) % p ^ n = (p - 1 + j) % p ^ n := by rw [← hvi, ← hvj]
  have hmeq : Nat.ModEq (p ^ n) (p - 1 + i) (p - 1 + j) := hmods
  have hcancel : Nat.ModEq (p ^ n) i j := Nat.ModEq.add_left_cancel' (p - 1) hmeq
  have hieq : i % p ^ n = j % p ^ n := hcancel
  rw [Nat.mod_eq_of_lt (by omega), Nat.mod_eq_of_lt hjlt] at hieq
  omega

/-- Witness for C6 at `p = 2`, `n = 2`: the fourth candidate has value
`(2 − 1 + 3) mod 4 = 0` and the second and third candidates differ. -/
theorem claim_C6_witness :
    polyValue 2 (trialPolySeq 2 2 3) = (2 - 1 + 3) % 2 ^ 2 ∧
    trialPolySeq 2 2 1 ≠ trialPolySeq 2 2 2 :=
  ⟨(claim_C6 2 2 (by norm_num) (by norm_num)).1 3,
   (claim_C6 2 2 (by norm_num) (by norm_num)).2 1 2 (by norm_num) (by norm_num)⟩

/-! ## The factorizer (modelled from the spec)

`Factorization` is only declared in `ppFactor.hpp`; its implementation file is
not part of this snapshot.  The deterministic factoring cascade is modelled
from the specification: trial division by 2, 3, 4, … up to `⌊√remaining⌋`,
dividing out each divisor to its full multiplicity, and accepting the residual
as prime once below the square of the current trial divisor. -/

/-- Modelled from the spec: divide `d` out of `N` as often as it divides,
returning the multiplicity and the cofactor (the "continues dividing by the
same prime until it no longer divides" step of the trial-division stage). -/
def divOut (d : Nat) (N : Nat) : Nat × Nat :=
  if h : 2 ≤ d ∧ 0 < N ∧ d ∣ N then
    ((divOut d (N / d)).1 + 1, (divOut d (N / d)).2)
  else (0, N)
termination_by N
decreasing_by
  exact Nat.div_lt_self h.2.1 (by omega)

theorem divOut_spec (d : Nat) :
    ∀ N : Nat, N = d ^ (divOut d N).1 * (divOut d N).2 ∧ (divOut d N).2 ≤ N := by
  intro N
  induction N using Nat.strong_induction_on with
  | _ N ih =>
      rw [divOut]
      by_cases h : 2 ≤ d ∧ 0 < N ∧ d ∣ N
      · rw [dif_pos h]
        have hlt : N / d < N := Nat.div_lt_self h.2.1 (by omega)
        obtain ⟨ih1, ih2⟩ := ih (N / d) hlt
        constructor
        · show N = d ^ ((divOut d (N / d)).1 + 1) * (divOut d (N / d)).2
          calc N = d * (N / d) := (Nat.mul_div_cancel' h.2.2).symm
          _ = d * (d ^ (divOut d (N / d)).1 * (divOut d (N / d)).2) := by rw [← ih1]
          _ = d ^ ((divOut d (N / d)).1 + 1) * (divOut d (N / d)).2 := by
              rw [pow_succ]
              ring
        · show (divOut d (N / d)).2 ≤ N
          omega
      · rw [dif_neg h]
        exact ⟨by simp, le_refl N⟩

theorem divOut_not_dvd (d : Nat) :
    ∀ N : Nat, 2 ≤ d → 0 < N → ¬ d ∣ (divOut d N).2 := by
  intro N
  induction N using Nat.strong_induction_on with
  | _ N ih =>
      intro hd hN
      rw [divOut]
      by_cases h : 2 ≤ d ∧ 0 < N ∧ d ∣ N
      · rw [dif_pos h]
        have hlt : N / d < N := Nat.div_lt_self h.2.1 (by omega)
        have hpos : 0 < N / d := Nat.div_pos (Nat.le_of_dvd hN h.2.2) (by omega)
        exact ih (N / d) hlt hd hpos
      · rw [dif_neg h]
        intro hdvd
        exact h ⟨hd, hN, hdvd⟩

theorem divOut_fst_pos (d N : Nat) (hd : 2 ≤ d) (hN : 0 < N) (hdvd : d ∣ N) :
    1 ≤ (divOut d N).1 := by
  rw [divOut, dif_pos ⟨hd, hN, hdvd⟩]
  show 1 ≤ (divOut d (N / d)).1 + 1
  omega

theorem divOut_snd_pos (d N : Nat) (hN : 0 < N) : 0 < (divOut d N).2 := by
  have h := (divOut_spec d N).1
  rcases Nat.eq_zero_or_pos (divOut d N).2 with h0 | h0
  · rw [h0, Nat.mul_zero] at h
    omega
  · exact h0

theorem divOut_snd_lt (d N : Nat) (hd : 2 ≤ d) (hN : 0 < N) (hdvd : d ∣ N) :
    (divOut d N).2 < N := by
  rw [divOut, dif_pos ⟨hd, hN, hdvd⟩]
  show (divOut d (N / d)).2 < N
  have hlt : N / d < N := Nat.div_lt_self hN (by omega)
  have h2 := (divOut_spec d (N / d)).2
  omega

/-- Modelled from the spec: the trial-division stage of `Factorization`, with
`d` the current trial divisor (divisors found this way are automatically
prime), accepting the residual as prime once `remaining < d²` (the spec's
"if the residual is > 1 and probably prime, accept it as prime": below `d²`
with no divisor below `d` the residual really is prime). -/
def trialFactor (d N : Nat) : List (Nat × Nat) :=
  if h : 2 ≤ d ∧ 2 ≤ N then
    if hsq : N < d * d then [(N, 1)]
    else if hdvd : d ∣ N then
      (d, (divOut d N).1) :: trialFactor (d + 1) (divOut d N).2
    else trialFactor (d + 1) N
  else []
termination_by (N, N + 1 - d)
decreasing_by
  · exact Prod.Lex.left _ _ (divOut_snd_lt d N h.1 (by omega) hdvd)
  · have hdd : d ≤ d * d := Nat.le_mul_of_pos_right d (by omega)
    exact Prod.Lex.right _ (by omega)

/-- The product `Π primeᵢ ^ multᵢ` of a factorization. -/
def factorProd (l : List (Nat × Nat)) : Nat :=
  l.foldr (fun pr acc => pr.1 ^ pr.2 * acc) 1

theorem factorProd_nil : factorProd [] = 1 := rfl

theorem factorProd_cons (pr : Nat × Nat) (l : List (Nat × Nat)) :
    factorProd (pr :: l) = pr.1 ^ pr.2 * factorProd l := rfl

/-- The full invariant of the trial-division factorizer, generalized over the
current trial divisor `d`: given that `N` has no divisor in `[2, d)`, the
output multiplies back to `N`, is strictly increasing, starts at or above `d`,
has all multiplicities at least 1, and lists only primes. -/
theorem trialFactor_invariant :
    ∀ d N : Nat, 2 ≤ d → 1 ≤ N → (∀ e, 2 ≤ e → e < d → ¬ e ∣ N) →
      factorProd (trialFactor d N) = N ∧
      (trialFactor d N).Pairwise (fun a b => a.1 < b.1) ∧
      ∀ pr ∈ trialFactor d N, d ≤ pr.1 ∧ 1 ≤ pr.2 ∧ Nat.Prime pr.1 := by
  intro d N
  induction d, N using trialFactor.induct with
  | case1 d N h hsq =>
      intro hd hN hnodiv
      rw [trialFactor, dif_pos h, dif_pos hsq]
      refine ⟨by simp [factorProd], List.pairwise_singleton _ _, ?_⟩
      intro pr hpr
      rw [List.mem_singleton] at hpr
      subst hpr
      have hdN : d ≤ N := by
        by_contra hcon
        push_neg at hcon
        exact hnodiv N h.2 hcon (dvd_refl N)
      refine ⟨hdN, le_refl 1, ?_⟩
      by_contra hnp
      have hmf : Nat.minFac N ∣ N := Nat.minFac_dvd N
      have hmfp : Nat.Prime (Nat.minFac N) := Nat.minFac_prime (by omega)
      have hsq2 : Nat.minFac N ^ 2 ≤ N := Nat.minFac_sq_le_self (by omega) hnp
      have hmlt : Nat.minFac N < d := by
        by_contra hge
        push_neg at hge
        have h1 : d ^ 2 ≤ Nat.minFac N ^ 2 := Nat.pow_le_pow_left hge 2
        have h2 : d ^ 2 = d * d := by ring
        omega
      exact hnodiv _ hmfp.two_le hmlt hmf
  | case2 d N h hsq hdvd ih =>
      intro hd hN hnodiv
      rw [trialFactor, dif_pos h, dif_neg hsq, dif_pos hdvd]
      have hNpos : 0 < N := by omega
      have hM := divOut_spec d N
      have hk1 : 1 ≤ (divOut d N).1 := divOut_fst_pos d N hd hNpos hdvd
      have hMpos : 0 < (divOut d N).2 := divOut_snd_pos d N hNpos
      have hMnd : ¬ d ∣ (divOut d N).2 := divOut_not_dvd d N hd hNpos
      have hMdvdN : (divOut d N).2 ∣ N :=
        ⟨d ^ (divOut d N).1, hM.1.trans (Nat.mul_comm _ _)⟩
      have hnodivM : ∀ e, 2 ≤ e → e < d + 1 → ¬ e ∣ (divOut d N).2 := by
        intro e he hlt hedvd
        rcases Nat.lt_or_ge e d with hed | hed
        · exact hnodiv e he hed (hedvd.trans hMdvdN)
        · have heq : e = d := by omega
          subst heq
          exact hMnd hedvd
      obtain ⟨ih1, ih2, ih3⟩ := ih (by omega) hMpos hnodivM
      have hdprime : Nat.Prime d := by
        rw [Nat.prime_def_minFac]
        refine ⟨hd, ?_⟩
        by_contra hne
        have hmfd : Nat.minFac d ∣ d := Nat.minFac_dvd d
        have hle : Nat.minFac d ≤ d := Nat.minFac_le (by omega)
        have hmfp : Nat.Prime (Nat.minFac d) := Nat.minFac_prime (by omega)
        exact hnodiv _ hmfp.two_le (by omega) (hmfd.trans hdvd)
      refine ⟨?_, ?_, ?_⟩
      · rw [factorProd_cons, ih1]
        exact hM.1.symm
      · rw [List.pairwise_cons]
        refine ⟨fun b hb => ?_, ih2⟩
        have := (ih3 b hb).1
        show d < b.1
        omega
      · intro pr hpr
        rcases List.mem_cons.mp hpr with rfl | hpr
        · exact ⟨le_refl d, hk1, hdprime⟩
        · obtain ⟨hb1, hb2, hb3⟩ := ih3 pr hpr
          exact ⟨by omega, hb2, hb3⟩
  | case3 d N h hsq hdvd ih =>
      intro hd hN hnodiv
      rw [trialFactor, dif_pos h, dif_neg hsq, dif_neg hdvd]
      have hnodivN : ∀ e, 2 ≤ e → e < d + 1 → ¬ e ∣ N := by
        intro e he hlt hedvd
        rcases Nat.lt_or_ge e d with hed | hed
        · exact hnodiv e he hed hedvd
        · have heq : e = d := by omega
          subst heq
          exact hdvd hedvd
      obtain ⟨ih1, ih2, ih3⟩ := ih (by omega) hN hnodivN
      refine ⟨ih1, ih2, ?_⟩
      intro pr hpr
      obtain ⟨hb1, hb2, hb3⟩ := ih3 pr hpr
      exact ⟨by omega, hb2, hb3⟩
  | case4 d N h =>
      intro hd hN hnodiv
      rw [trialFactor, dif_neg h]
      have hN2 : ¬ 2 ≤ N := fun hB => h ⟨hd, hB⟩
      have hN1 : N = 1 := by omega
      refine ⟨by rw [factorProd_nil, hN1], List.Pairwise.nil, ?_⟩
      intro pr hpr
      simp at hpr

/-! ### The staged factoring cascade as a state machine

The spec's cascade (§4.3) runs three factor-peeling stages: table lookup
(when the call is hinted with `(p, m)`, as `main`'s call is), trial division,
and Pollard-ρ with Brent's cycle finding.  Each stage peels factors off the
unfactored part and records them in the sorted factor list.  The state of the
factorizer is the factor list found so far together with the still-unfactored
parts (Pollard-ρ splits one part into two halves, both factored further). -/

/-- Sorted insertion of the factor `q ^ k` into a factor list ordered by
prime, merging multiplicities when `q` is already present (the source keeps
the `PrimeFactor` list ordered with `CompareFactor`). -/
def insertFactor (q k : Nat) : List (Nat × Nat) → List (Nat × Nat)
  | [] => [(q, k)]
  | pr :: l =>
      if q < pr.1 then (q, k) :: pr :: l
      else if q = pr.1 then (pr.1, pr.2 + k) :: l
      else pr :: insertFactor q k l

theorem insertFactor_prod (q k : Nat) :
    ∀ l : List (Nat × Nat), factorProd (insertFactor q k l) = q ^ k * factorProd l := by
  intro l
  induction l with
  | nil =>
      show factorProd [(q, k)] = q ^ k * factorProd []
      rw [factorProd_cons, factorProd_nil]
  | cons pr l ih =>
      show factorProd
          (if q < pr.1 then (q, k) :: pr :: l
           else if q = pr.1 then (pr.1, pr.2 + k) :: l
           else pr :: insertFactor q k l) = q ^ k * factorProd (pr :: l)
      by_cases h1 : q < pr.1
      · rw [if_pos h1, factorProd_cons]
      · rw [if_neg h1]
        by_cases h2 : q = pr.1
        · rw [if_pos h2, factorProd_cons, factorProd_cons]
          show pr.1 ^ (pr.2 + k) * factorProd l = q ^ k * (pr.1 ^ pr.2 * factorProd l)
          rw [h2, pow_add]
          ring
        · rw [if_neg h2, factorProd_cons, factorProd_cons, ih]
          ring

theorem insertFactor_fst (q k : Nat) :
    ∀ (l : List (Nat × Nat)) (b : Nat × Nat), b ∈ insertFactor q k l →
      b.1 = q ∨ ∃ c ∈ l, b.1 = c.1 := by
  intro l
  induction l with
  | nil =>
      intro b hb
      have hb2 : b ∈ [(q, k)] := hb
      rw [List.mem_singleton] at hb2
      subst hb2
      exact Or.inl rfl
  | cons pr l ih =>
      intro b hb
      have hb2 : b ∈ (if q < pr.1 then (q, k) :: pr :: l
          else if q = pr.1 then (pr.1, pr.2 + k) :: l
          else pr :: insertFactor q k l) := hb
      by_cases h1 : q < pr.1
      · rw [if_pos h1] at hb2
        rcases List.mem_cons.mp hb2 with hbq | hb3
        · rw [hbq]
          exact Or.inl rfl
        · exact Or.inr ⟨b, hb3, rfl⟩
      · rw [if_neg h1] at hb2
        by_cases h2 : q = pr.1
        · rw [if_pos h2] at hb2
          rcases List.mem_cons.mp hb2 with hbq | hb3
          · exact Or.inr ⟨pr, List.mem_cons_self pr l, by rw [hbq]⟩
          · exact Or.inr ⟨b, List.mem_cons_of_mem pr hb3, rfl⟩
        · rw [if_neg h2] at hb2
          rcases List.mem_cons.mp hb2 with hbq | hb3
          · exact Or.inr ⟨pr, List.mem_cons_self pr l, by rw [hbq]⟩
          · rcases ih b hb3 with hbq | ⟨c, hc, hbc⟩
            · exact Or.inl hbq
            · exact Or.inr ⟨c, List.mem_cons_of_mem pr hc, hbc⟩

theorem insertFactor_sorted (q k : Nat) :
    ∀ l : List (Nat × Nat), l.Pairwise (fun a b => a.1 < b.1) →
      (insertFactor q k l).Pairwise (fun a b => a.1 < b.1) := by
  intro l
  induction l with
  | nil => intro _; exact List.pairwise_singleton _ _
  | cons pr l ih =>
      intro hp
      rw [List.pairwise_cons] at hp
      obtain ⟨hhead, htail⟩ := hp
      show List.Pairwise (fun a b => a.1 < b.1)
          (if q < pr.1 then (q, k) :: pr :: l
           else if q = pr.1 then (pr.1, pr.2 + k) :: l
           else pr :: insertFactor q k l)
      by_cases h1 : q < pr.1
      · rw [if_pos h1, List.pairwise_cons]
        refine ⟨?_, ?_⟩
        · intro b hb
          rcases List.mem_cons.mp hb with hbq | hb3
          · rw [hbq]
            exact h1
          · exact lt_trans h1 (hhead b hb3)
        · rw [List.pairwise_cons]
          exact ⟨hhead, htail⟩
      · rw [if_neg h1]
        by_cases h2 : q = pr.1
        · rw [if_pos h2, List.pairwise_cons]
          exact ⟨fun b hb => hhead b hb, htail⟩
        · rw [if_neg h2, List.pairwise_cons]
          refine ⟨?_, ih htail⟩
          intro b hb
          rcases insertFactor_fst q k l b hb with hbq | ⟨c, hc, hbc⟩
          · rw [hbq]
            omega
          · rw [hbc]
            exact hhead c hc

theorem insertFactor_entries (q k : Nat) (hq : Nat.Prime q) (hk : 1 ≤ k) :
    ∀ l : List (Nat × Nat), (∀ pr ∈ l, 1 ≤ pr.2 ∧ Nat.Prime pr.1) →
      ∀ pr ∈ insertFactor q k l, 1 ≤ pr.2 ∧ Nat.Prime pr.1 := by
  intro l
  induction l with
  | nil =>
      intro _ pr hpr
      have hpr2 : pr ∈ [(q, k)] := hpr
      rw [List.mem_singleton] at hpr2
      subst hpr2
      exact ⟨hk, hq⟩
  | cons pr l ih =>
      intro hl b hb
      have hpr := hl pr (List.mem_cons_self pr l)
      have hltail : ∀ c ∈ l, 1 ≤ c.2 ∧ Nat.Prime c.1 :=
        fun c hc => hl c (List.mem_cons_of_mem pr hc)
      have hb2 : b ∈ (if q < pr.1 then (q, k) :: pr :: l
          else if q = pr.1 then (pr.1, pr.2 + k) :: l
          else pr :: insertFactor q k l) := hb
      by_cases h1 : q < pr.1
      · rw [if_pos h1] at hb2
        rcases List.mem_cons.mp hb2 with hbq | hb3
        · rw [hbq]
          exact ⟨hk, hq⟩
        · exact hl b hb3
      · rw [if_neg h1] at hb2
        by_cases h2 : q = pr.1
        · rw [if_pos h2] at hb2
          rcases List.mem_cons.mp hb2 with hbq | hb3
          · rw [hbq]
            refine ⟨?_, hpr.2⟩
            show 1 ≤ pr.2 + k
            omega
          · exact hltail b hb3
        · rw [if_neg h2] at hb2
          rcases List.mem_cons.mp hb2 with hbq | hb3
          · rw [hbq]
            exact hpr
          · exact ih hltail b hb3

/-- Insert every (prime, multiplicity) pair of `l` into the sorted list `f`. -/
def insertAll (l : List (Nat × Nat)) (f : List (Nat × Nat)) : List (Nat × Nat) :=
  l.foldr (fun pr acc => insertFactor pr.1 pr.2 acc) f

theorem insertAll_prod :
    ∀ (l f : List (Nat × Nat)),
      factorProd (insertAll l f) = factorProd l * factorProd f := by
  intro l
  induction l with
  | nil => intro f; simp [insertAll, factorProd_nil]
  | cons pr l ih =>
      intro f
      show factorProd (insertFactor pr.1 pr.2 (insertAll l f))
          = factorProd (pr :: l) * factorProd f
      rw [insertFactor_prod, ih, factorProd_cons]
      ring

theorem insertAll_sorted :
    ∀ (l f : List (Nat × Nat)), f.Pairwise (fun a b => a.1 < b.1) →
      (insertAll l f).Pairwise (fun a b => a.1 < b.1) := by
  intro l
  induction l with
  | nil => intro f hf; exact hf
  | cons pr l ih =>
      intro f hf
      exact insertFactor_sorted pr.1 pr.2 _ (ih f hf)

theorem insertAll_entries :
    ∀ (l f : List (Nat × Nat)),
      (∀ pr ∈ l, 1 ≤ pr.2 ∧ Nat.Prime pr.1) →
      (∀ pr ∈ f, 1 ≤ pr.2 ∧ Nat.Prime pr.1) →
      ∀ pr ∈ insertAll l f, 1 ≤ pr.2 ∧ Nat.Prime pr.1 := by
  intro l
  induction l with
  | nil => intro f _ hf; exact hf
  | cons pr l ih =>
      intro f hl hf
      have hpr := hl pr (List.mem_cons_self pr l)
      exact insertFactor_entries pr.1 pr.2 hpr.2 hpr.1 _
        (ih f (fun c hc => hl c (List.mem_cons_of_mem pr hc)) hf)

/-- The factorizer's working state: the (prime, multiplicity) list found so
far, kept sorted, and the still-unfactored parts of the input. -/
structure FactorState where
  factors : List (Nat × Nat)
  pending : List Nat
deriving DecidableEq

/-- Product of the still-unfactored parts. -/
def pendingProd (l : List Nat) : Nat := l.foldr (fun a b => a * b) 1

theorem pendingProd_nil : pendingProd [] = 1 := rfl

theorem pendingProd_cons (R : Nat) (rest : List Nat) :
    pendingProd (R :: rest) = R * pendingProd rest := rfl

/-- The data-model invariant of the spec relative to the input `N`: the found
factors are an ordered sequence of (prime, multiplicity) pairs with primes
strictly increasing and multiplicities at least 1, and their product times the
product of the unfactored parts equals `N` (so on completion the product of
`primeᵢ ^ multᵢ` alone equals `N`). -/
def FactorInv (N : Nat) (s : FactorState) : Prop :=
  factorProd s.factors * pendingProd s.pending = N ∧
  s.factors.Pairwise (fun a b => a.1 < b.1) ∧
  (∀ pr ∈ s.factors, 1 ≤ pr.2 ∧ Nat.Prime pr.1) ∧
  (∀ R ∈ s.pending, 1 ≤ R)

/-- The state in which `factor(N, hint)` starts: nothing found, `N` pending. -/
def initState (N : Nat) : FactorState := ⟨[], [N]⟩

/-- Modelled from the spec: one peel of the table-lookup stage (the
`Factorization::factorTable` implementation is not under src/).  The advisory
table record supplies a known prime `q` of the hinted `pᵐ − 1`; the stage
divides `q` out of the unfactored part to its full multiplicity and records
it.  A `q` that does not divide the pending part contributes nothing. -/
def tablePeel (q : Nat) : FactorState → FactorState
  | ⟨f, []⟩ => ⟨f, []⟩
  | ⟨f, R :: rest⟩ =>
      if 2 ≤ q ∧ 1 ≤ (divOut q R).1 then
        ⟨insertFactor q (divOut q R).1 f, (divOut q R).2 :: rest⟩
      else ⟨f, R :: rest⟩

/-- Modelled from the spec: the table-lookup stage peels every prime listed in
the table record (`qs`), in order, then leaves the residual for the following
algorithmic stages ("the Factorizer uses what it finds and completes the rest
algorithmically"). -/
def tableStage : List Nat → FactorState → FactorState
  | [], s => s
  | q :: qs, s => tableStage qs (tablePeel q s)

/-- Modelled from the spec: the trial-division stage (with the Miller-Rabin
acceptance of the prime residual, spec stages 2-3) factors one unfactored
part completely via `trialFactor` and records every factor found. -/
def trialDivisionStage : FactorState → FactorState
  | ⟨f, []⟩ => ⟨f, []⟩
  | ⟨f, R :: rest⟩ => ⟨insertAll (trialFactor 2 R) f, rest⟩

/-- Modelled from the spec: one Pollard-ρ split.  Brent's randomized cycle
search (retried with `c+1` on failure) yields some nontrivial divisor `g` of
the composite part `R`; the stage replaces `R` by the two halves `g` and
`R / g`, both to be factored further ("Recursively factor the two halves").
Since the divisor found depends on the PRNG, the split value `g` is a
parameter; a `g` that is not a nontrivial divisor leaves the state unchanged
(the retry loop). -/
def rhoSplitStage (g : Nat) : FactorState → FactorState
  | ⟨f, []⟩ => ⟨f, []⟩
  | ⟨f, R :: rest⟩ =>
      if g ∣ R ∧ 1 < g ∧ g < R then ⟨f, g :: R / g :: rest⟩
      else ⟨f, R :: rest⟩

/-- The table-lookup stage preserves the invariant, one peel at a time, given
the external contract that the table lists genuine primes (spec §6). -/
theorem tablePeel_inv (N q : Nat) (hq : Nat.Prime q) :
    ∀ s : FactorState, FactorInv N s → FactorInv N (tablePeel q s) := by
  intro s hs
  obtain ⟨f, pend⟩ := s
  obtain ⟨hprod, hsort, hent, hpos⟩ := hs
  cases pend with
  | nil => exact ⟨hprod, hsort, hent, hpos⟩
  | cons R rest =>
      by_cases h : 2 ≤ q ∧ 1 ≤ (divOut q R).1
      · have hstate : tablePeel q ⟨f, R :: rest⟩
            = ⟨insertFactor q (divOut q R).1 f, (divOut q R).2 :: rest⟩ := by
          simp [tablePeel, h]
        rw [hstate]
        have hR1 : 1 ≤ R := hpos R (List.mem_cons_self R rest)
        have hRspec := (divOut_spec q R).1
        have hR2 : 0 < (divOut q R).2 := divOut_snd_pos q R (by omega)
        refine ⟨?_, ?_, ?_, ?_⟩
        · show factorProd (insertFactor q (divOut q R).1 f)
              * pendingProd ((divOut q R).2 :: rest) = N
          rw [insertFactor_prod, pendingProd_cons]
          calc q ^ (divOut q R).1 * factorProd f * ((divOut q R).2 * pendingProd rest)
              = factorProd f * (q ^ (divOut q R).1 * (divOut q R).2 * pendingProd rest) := by
                ring
            _ = factorProd f * (R * pendingProd rest) := by rw [← hRspec]
            _ = factorProd f * pendingProd (R :: rest) := by rw [pendingProd_cons]
            _ = N := hprod
        · exact insertFactor_sorted q _ f hsort
        · exact insertFactor_entries q _ hq h.2 f hent
        · intro R2 hR2
          rcases List.mem_cons.mp hR2 with rfl | hR2
          · omega
          · exact hpos R2 (List.mem_cons_of_mem R hR2)
      · have hstate : tablePeel q ⟨f, R :: rest⟩ = ⟨f, R :: rest⟩ := by
          simp [tablePeel, h]
        rw [hstate]
        exact ⟨hprod, hsort, hent, hpos⟩

theorem tableStage_inv (N : Nat) :
    ∀ (qs : List Nat) (s : FactorState), (∀ q ∈ qs, Nat.Prime q) →
      FactorInv N s → FactorInv N (tableStage qs s) := by
  intro qs
  induction qs with
  | nil => intro s _ hs; exact hs
  | cons q qs ih =>
      intro s hq hs
      exact ih _ (fun r hr => hq r (List.mem_cons_of_mem q hr))
        (tablePeel_inv N q (hq q (List.mem_cons_self q qs)) s hs)

/-- The trial-division stage (with prime-residual acceptance) preserves the
invariant, fully factoring one pending part. -/
theorem trialDivisionStage_inv (N : Nat) :
    ∀ s : FactorState, FactorInv N s → FactorInv N (trialDivisionStage s) := by
  intro s hs
  obtain ⟨f, pend⟩ := s
  obtain ⟨hprod, hsort, hent, hpos⟩ := hs
  cases pend with
  | nil => exact ⟨hprod, hsort, hent, hpos⟩
  | cons R rest =>
      have hR1 : 1 ≤ R := hpos R (List.mem_cons_self R rest)
      obtain ⟨htf1, htf2, htf3⟩ := trialFactor_invariant 2 R (le_refl 2) hR1
        (fun e he hlt _ => by omega)
      refine ⟨?_, ?_, ?_, ?_⟩
      · show factorProd (insertAll (trialFactor 2 R) f) * pendingProd rest = N
        rw [insertAll_prod, htf1]
        calc R * factorProd f * pendingProd rest
            = factorProd f * (R * pendingProd rest) := by ring
          _ = factorProd f * pendingProd (R :: rest) := by rw [pendingProd_cons]
          _ = N := hprod
      · exact insertAll_sorted _ f hsort
      · exact insertAll_entries _ f
          (fun pr hpr => ⟨(htf3 pr hpr).2.1, (htf3 pr hpr).2.2⟩) hent
      · exact fun R2 hR2 => hpos R2 (List.mem_cons_of_mem R hR2)

/-- A Pollard-ρ split preserves the invariant for every split value `g`. -/
theorem rhoSplitStage_inv (N g : Nat) :
    ∀ s : FactorState, FactorInv N s → FactorInv N (rhoSplitStage g s) := by
  intro s hs
  obtain ⟨f, pend⟩ := s
  obtain ⟨hprod, hsort, hent, hpos⟩ := hs
  cases pend with
  | nil => exact ⟨hprod, hsort, hent, hpos⟩
  | cons R rest =>
      by_cases h : g ∣ R ∧ 1 < g ∧ g < R
      · have hstate : rhoSplitStage g ⟨f, R :: rest⟩ = ⟨f, g :: R / g :: rest⟩ := by
          simp [rhoSplitStage, h]
        rw [hstate]
        have hgR : g * (R / g) = R := Nat.mul_div_cancel' h.1
        refine ⟨?_, hsort, hent, ?_⟩
        · show factorProd f * pendingProd (g :: R / g :: rest) = N
          rw [pendingProd_cons, pendingProd_cons]
          calc factorProd f * (g * (R / g * pendingProd rest))
              = factorProd f * (g * (R / g) * pendingProd rest) := by ring
            _ = factorProd f * (R * pendingProd rest) := by rw [hgR]
            _ = factorProd f * pendingProd (R :: rest) := by rw [pendingProd_cons]
            _ = N := hprod
        · intro R2 hR2
          rcases List.mem_cons.mp hR2 with rfl | hR2
          · omega
          · rcases List.mem_cons.mp hR2 with rfl | hR2
            · exact Nat.div_pos (le_of_lt h.2.2) (by omega)
            · exact hpos R2 (List.mem_cons_of_mem R hR2)
      · have hstate : rhoSplitStage g ⟨f, R :: rest⟩ = ⟨f, R :: rest⟩ := by
          simp [rhoSplitStage, h]
        rw [hstate]
        exact ⟨hprod, hsort, hent, hpos⟩

/-- When nothing is pending, the found factors alone multiply back to `N`. -/
theorem factorState_complete (N : Nat) :
    ∀ s : FactorState, FactorInv N s → s.pending = [] → factorProd s.factors = N := by
  intro s hs hp
  obtain ⟨hprod, _, _, _⟩ := hs
  rw [hp, pendingProd_nil, Nat.mul_one] at hprod
  exact hprod

theorem tablePeel_pending_length (q : Nat) :
    ∀ s : FactorState, (tablePeel q s).pending.length = s.pending.length := by
  intro s
  obtain ⟨f, pend⟩ := s
  cases pend with
  | nil => rfl
  | cons R rest =>
      by_cases h : 2 ≤ q ∧ 1 ≤ (divOut q R).1 <;> simp [tablePeel, h]

theorem tableStage_pending_length :
    ∀ (qs : List Nat) (s : FactorState),
      (tableStage qs s).pending.length = s.pending.length := by
  intro qs
  induction qs with
  | nil => intro s; rfl
  | cons q qs ih =>
      intro s
      show (tableStage qs (tablePeel q s)).pending.length = s.pending.length
      rw [ih, tablePeel_pending_length]

theorem trialDivisionStage_pending :
    ∀ (s : FactorState) (R : Nat) (rest : List Nat), s.pending = R :: rest →
      (trialDivisionStage s).pending = rest := by
  intro s R rest h
  obtain ⟨f, pend⟩ := s
  simp only at h
  subst h
  rfl

/-! ## Claim C7: the factorization invariant holds after every stage -/

/-- C7: for every input `N ≥ 1` the factorizer accepts, the factorization
state is an ordered sequence of (prime, multiplicity) pairs with primes
strictly increasing and genuinely prime, multiplicities at least 1, and
product times the unfactored remainder equal to `N` — and this invariant
holds at the start and after every factoring stage: after each table-lookup
peel (given the spec's external contract that the table lists primes), after
the trial-division stage (with its prime-residual acceptance), and after
every Pollard-ρ split, whatever divisor the randomized search returns.
Consequently, once nothing is left unfactored the product of
`primeᵢ ^ multᵢ` alone equals `N`; in particular the hinted, table-first
pipeline that `main`'s call runs (table stage, then trial division on the
residual) returns a strictly increasing prime factorization of `N` with all
multiplicities at least 1 multiplying back to `N`. -/
theorem claim_C7 (N : Nat) (hN : 1 ≤ N) :
    FactorInv N (initState N) ∧
    (∀ (qs : List Nat) (s : FactorState), (∀ q ∈ qs, Nat.Prime q) →
      FactorInv N s → FactorInv N (tableStage qs s)) ∧
    (∀ s : FactorState, FactorInv N s → FactorInv N (trialDivisionStage s)) ∧
    (∀ (g : Nat) (s : FactorState), FactorInv N s → FactorInv N (rhoSplitStage g s)) ∧
    (∀ s : FactorState, FactorInv N s → s.pending = [] →
      factorProd s.factors = N) ∧
    (∀ qs : List Nat, (∀ q ∈ qs, Nat.Prime q) →
      factorProd (trialDivisionStage (tableStage qs (initState N))).factors = N ∧
      (trialDivisionStage (tableStage qs (initState N))).pending = [] ∧
      (trialDivisionStage (tableStage qs (initState N))).factors.Pairwise
        (fun a b => a.1 < b.1) ∧
      ∀ pr ∈ (trialDivisionStage (tableStage qs (initState N))).factors,
        1 ≤ pr.2 ∧ Nat.Prime pr.1) := by
  have hinit : FactorInv N (initState N) := by
    refine ⟨?_, List.Pairwise.nil, ?_, ?_⟩
    · show factorProd [] * pendingProd [N] = N
      rw [factorProd_nil, pendingProd_cons, pendingProd_nil]
      omega
    · intro pr hpr
      simp [initState] at hpr
    · intro R hR
      rw [show (initState N).pending = [N] from rfl, List.mem_singleton] at hR
      omega
  refine ⟨hinit, tableStage_inv N, trialDivisionStage_inv N, rhoSplitStage_inv N,
    factorState_complete N, ?_⟩
  intro qs hq
  have hs1 : FactorInv N (tableStage qs (initState N)) :=
    tableStage_inv N qs (initState N) hq hinit
  have hlen : (tableStage qs (initState N)).pending.length = 1 := by
    rw [tableStage_pending_length]
    rfl
  obtain ⟨R, hR⟩ := List.length_eq_one.mp hlen
  have hpend : (trialDivisionStage (tableStage qs (initState N))).pending = [] :=
    trialDivisionStage_pending _ R [] hR
  have hfinal : FactorInv N (trialDivisionStage (tableStage qs (initState N))) :=
    trialDivisionStage_inv N _ hs1
  obtain ⟨h1, h2, h3, h4⟩ := hfinal
  exact ⟨factorState_complete N _ ⟨h1, h2, h3, h4⟩ hpend, hpend, h2, h3⟩

/-- Witness for C7 at `N = 12` with the table record listing the prime 3:
the table stage peels `3`, trial division factors the residual `4 = 2²`, and
the final factor list `[(2, 2), (3, 1)]` multiplies back to 12. -/
theorem claim_C7_witness :
    factorProd (trialDivisionStage (tableStage [3] (initState 12))).factors = 12 :=
  ((claim_C7 12 (by norm_num)).2.2.2.2.2 [3] (by decide)).1

end Primpoly
